import Mathlib

/-!
Shallow embedding of the regols language-server analysis core
(`langserver/internal/cache`): the module store (`project.go`), the
cursor-to-term locator, the scope resolver, the import resolver and the
completion engine (`completion.go` / `definition.go`).

Strings are modelled as lists of characters.  Go maps are modelled as
functions into `Option`.  The external OPA parser and compiler are
abstract parameters (`parse`, `compile`); the AST node kinds that the
code traverses (`ast.Var`, `ast.String`, `ast.Number`, `ast.Boolean`,
`ast.Ref`, `ast.Array`, `ast.Call`) are modelled as a closed variant
type, so the "not supported type" error branch of the Go code has no
inhabitant here.  Run-time panics of the Go code (nil-pointer
dereference, out-of-range slice) are modelled as explicit result
constructors where they are reachable.
-/

namespace Regols

/-- Character-list strings, the model of Go `string`. -/
abbrev Str := List Char

/-- Conversion from Lean string literals to the `Str` model. -/
def str (s : String) : Str := s.data

/-- Model of `location.Location`: source text of the node, file, row,
column and byte offset. -/
structure Loc where
  text : Str
  file : Str
  row : Int
  col : Int
  offset : Nat
deriving DecidableEq, Repr

/-- Model of the Go helper `in(target, src)`:
`target.Offset >= src.Offset && target.Offset <= src.Offset + len(src.Text)`. -/
def inLoc (target src : Loc) : Bool :=
  target.offset ≥ src.offset && target.offset ≤ src.offset + src.text.length

mutual
/-- Model of `*ast.Term`: a value together with its location. -/
inductive Term where
  | mk (value : Value) (location : Loc) : Term

/-- Model of `ast.Value`, restricted to the node kinds the traversals
handle: `Var`, `String`, `Number` (a `json.Number`, i.e. its decimal
text), `Boolean`, `Ref`, `*Array` and `Call`. -/
inductive Value where
  | var (s : Str) : Value
  | string (s : Str) : Value
  | number (s : Str) : Value
  | boolean (b : Bool) : Value
  | ref (ts : TermList) : Value
  | array (ts : TermList) : Value
  | call (ts : TermList) : Value

/-- Model of a Go slice `[]*ast.Term` occurring inside a term. -/
inductive TermList where
  | nil : TermList
  | cons (t : Term) (ts : TermList) : TermList
end

deriving instance DecidableEq for Term, Value, TermList

/-- The `Value` carried by a term. -/
def Term.value : Term → Value
  | .mk v _ => v

/-- The location carried by a term (Go `term.Loc()`). -/
def Term.loc : Term → Loc
  | .mk _ l => l

/-- Conversion of a `TermList` to an ordinary list (for statements). -/
def TermList.toList : TermList → List Term
  | .nil => []
  | .cons t ts => t :: ts.toList

/-- The element at index 1 of a term slice (Go `t[1]`), when present. -/
def termListGet1 : TermList → Option Term
  | .cons _ (.cons t _) => some t
  | _ => none

/-- The last element of a term slice (Go `v[len(v)-1]`), when present. -/
def termListGetLast : TermList → Option Term
  | .nil => none
  | .cons t .nil => some t
  | .cons _ (.cons t ts) => termListGetLast (.cons t ts)

/-- First character class of OPA's variable regexp `[a-zA-Z_]`. -/
def isVarStartChar (c : Char) : Bool := c.isAlpha || c == '_'

/-- Later character class of OPA's variable regexp `[a-zA-Z0-9_]`. -/
def isVarChar (c : Char) : Bool := c.isAlphanum || c == '_'

/-- The rego keywords recognised by OPA's `ast.IsKeyword`. -/
def regoKeywords : List Str :=
  [str "not", str "package", str "import", str "as", str "default",
   str "else", str "with", str "null", str "true", str "false", str "some"]

/-- Whether a string matches OPA's variable regexp and is not a keyword
(the condition under which a `Ref` string key prints in dot notation). -/
def isVarName (s : Str) : Bool :=
  match s with
  | [] => false
  | c :: rest => isVarStartChar c && rest.all isVarChar && !(regoKeywords.contains s)

/-- Model of `strconv.Quote` as used by `ast.String.String()`.  Escaping
of special characters is not modelled; every concrete string used below
contains only plain characters. -/
def quoteStr (s : Str) : Str := '"' :: (s ++ [ '"' ])

mutual
/-- Model of `ast.Term.String()`: the rendering of its value. -/
def termString (t : Term) : Str :=
  match t with
  | .mk v _ => valueString v

/-- Model of `ast.Value.String()` on the modelled node kinds. -/
def valueString (v : Value) : Str :=
  match v with
  | .var s => s
  | .string s => quoteStr s
  | .number s => s
  | .boolean b => if b then str "true" else str "false"
  | .ref ts => refString ts
  | .array ts => str "[" ++ List.intercalate (str ", ") (termStrings ts) ++ str "]"
  | .call ts =>
    match ts with
    | .nil => []
    | .cons op args => termString op ++ str "(" ++ List.intercalate (str ", ") (termStrings args) ++ str ")"

/-- Model of `ast.Ref.String()`: head value rendering followed by the
remaining segments. -/
def refString (ts : TermList) : Str :=
  match ts with
  | .nil => []
  | .cons h rest => termString h ++ refRestString rest

/-- Rendering of the non-head segments of a `Ref`: a string key that is
a plain variable name prints as `.name`, anything else in brackets. -/
def refRestString (ts : TermList) : Str :=
  match ts with
  | .nil => []
  | .cons p rest =>
    (match p with
     | .mk (.string s) _ =>
       if isVarName s then '.' :: s else str "[" ++ quoteStr s ++ str "]"
     | .mk v _ => str "[" ++ valueString v ++ str "]") ++ refRestString rest

/-- Renderings of the elements of a term slice. -/
def termStrings (ts : TermList) : List Str :=
  match ts with
  | .nil => []
  | .cons t rest => termString t :: termStrings rest
end

/-- Model of `*ast.Import`: the dotted path segments of `imp.Path` and
the alias variable, whose zero value (the empty string) means that no
explicit alias was written. -/
structure Import where
  path : List Str
  aliasName : Str
deriving DecidableEq, Repr

/-- Model of `ast.Import.String()`:
`"import " + path + (alias == "" ? "" : " as " + alias)`, where the path
(a ref of plain name segments) prints in dot notation. -/
def importString (imp : Import) : Str :=
  str "import " ++ List.intercalate (str ".") imp.path
    ++ (if imp.aliasName.isEmpty then [] else str " as " ++ imp.aliasName)

/-- The characters after the last dot of `s`; the whole string when `s`
has no dot.  This is Go `s[strings.LastIndex(s, ".")+1:]`. -/
def afterLastDot (s : Str) : Str :=
  (s.reverse.takeWhile (fun c => c != '.')).reverse

/-- The substring of `s` from its last dot on, dot included
(Go `s[strings.LastIndex(s, "."):]`); `none` when `s` has no dot, in
which case the Go slice expression panics with a negative index. -/
def fromLastDot (s : Str) : Option Str :=
  if s.contains '.' then some ('.' :: afterLastDot s) else none

/-- Model of `importToLabel`: the alias when one is present, else the
text of the rendered import after its last dot. -/
def importToLabel (imp : Import) : Str :=
  if imp.aliasName.isEmpty then afterLastDot (importString imp) else imp.aliasName

/-- Model of `*ast.Head`: rule name, optional key term, argument terms. -/
structure Head where
  name : Str
  key : Option Term
  args : TermList
deriving DecidableEq

/-- Model of the dynamic type of `ast.Expr.Terms`, which the code
switches on: either a single `*ast.Term` or a slice `[]*ast.Term`. -/
inductive ExprTerms where
  | term (t : Term) : ExprTerms
  | terms (ts : TermList) : ExprTerms
deriving DecidableEq

/-- Model of `*ast.Expr`: its terms and its location. -/
structure Expr where
  terms : ExprTerms
  loc : Loc
deriving DecidableEq

/-- Model of `*ast.Rule`: head, ordered body, location. -/
structure Rule where
  head : Head
  body : List Expr
  loc : Loc
deriving DecidableEq

/-- Model of `*ast.Module`: package path segments (`Package.Path`),
the import declarations in order, and the rules in order. -/
structure Module where
  pkg : List Str
  imps : List Import
  rules : List Rule
deriving DecidableEq

/-- Model of `cache.File`: overlay text and version. -/
structure File where
  rowText : Str
  version : Int
deriving DecidableEq

/-- Model of one entry of `ast.Errors`: a diagnostic message. -/
structure RegoError where
  message : Str
deriving DecidableEq

/-- Model of `cache.Project`: root path, the three Go maps as functions
into `Option`. -/
@[ext]
structure Project where
  rootPath : Str
  openFiles : Str → Option File
  modules : Str → Option Module
  errs : Str → Option (List RegoError)

/-- Pointwise update of a map, the model of Go map assignment and
(with `none`) of `delete`. -/
def updateMap {α : Type} (m : Str → Option α) (k : Str) (v : Option α) : Str → Option α :=
  fun q => if q = k then v else m q

/-- Outcome of `ast.ParseModule`, the external parser: a module, a set
of syntax diagnostics (`ast.Errors`), or any other (fatal) error. -/
inductive ParseResult where
  | ok (m : Module) : ParseResult
  | syntaxErr (es : List RegoError) : ParseResult
  | fatal : ParseResult
deriving DecidableEq

/-- Model of `Project.UpdateFile`: store the overlay, reparse; on an
`ast.Errors` failure record the diagnostics and return nil; on any
other error return it (`false`); on success replace the module and
delete the stored diagnostics.  The returned `Bool` is `true` exactly
when the Go function returns a nil error. -/
def UpdateFile (parse : Str → ParseResult) (p : Project) (path text : Str) (version : Int) :
    Project × Bool :=
  let p1 : Project :=
    { p with openFiles := updateMap p.openFiles path (some { rowText := text, version := version }) }
  match parse text with
  | .syntaxErr es => ({ p1 with errs := updateMap p1.errs path (some es) }, true)
  | .fatal => (p1, false)
  | .ok m =>
    ({ p1 with
        modules := updateMap p1.modules path (some m),
        errs := updateMap p1.errs path none }, true)

/-- Model of `Project.GetErrors`: the stored per-file diagnostics when
present, else the findings of the external whole-project compile
(`compile` returns the empty list exactly when `!compiler.Failed()`). -/
def GetErrors (compile : (Str → Option Module) → List RegoError) (p : Project) (path : Str) :
    List RegoError :=
  match p.errs path with
  | some es => es
  | none => compile p.modules

/-- Model of `Project.GetModule`. -/
def GetModule (p : Project) (path : Str) : Option Module := p.modules path

mutual
/-- Model of `searchTargetTermInTerm`.  The Go error return covers AST
node kinds outside the modelled fragment and cannot arise here, so the
result is just the optional located term.  A `Ref` of length one
descends into its head; a `Ref` whose first two segments are a `Var`
and a `String` with the cursor inside either segment yields the
synthesized two-segment compound term carrying the first segment's
file, row, column and offset; otherwise the segments are scanned like
any slice.  An empty `Ref` (never produced by the parser) scans an
empty slice and yields nothing. -/
def searchTargetTermInTerm (loc : Loc) (term : Term) : Option Term :=
  match term with
  | .mk v _ =>
    match v with
    | .call ts => searchTargetTermInTerms loc ts
    | .ref ts =>
      match ts with
      | .nil => none
      | .cons t0 .nil => searchTargetTermInTerm loc t0
      | .cons t0 (.cons t1 rest) =>
        match t0.value, t1.value with
        | .var _, .string _ =>
          if inLoc loc t0.loc || inLoc loc t1.loc then
            some (Term.mk (.ref (.cons t0 (.cons t1 .nil)))
              { text := valueString (.ref (.cons t0 (.cons t1 .nil))),
                file := t0.loc.file, row := t0.loc.row,
                col := t0.loc.col, offset := t0.loc.offset })
          else searchTargetTermInTerms loc (.cons t0 (.cons t1 rest))
        | _, _ => searchTargetTermInTerms loc (.cons t0 (.cons t1 rest))
    | .array ts => searchTargetTermInArray loc ts
    | .var _ => some term
    | .string _ => none
    | .boolean _ => none
    | .number _ => none

/-- Model of `searchTargetTermInTerms`: descend into the first slice
element whose span contains the cursor. -/
def searchTargetTermInTerms (loc : Loc) (ts : TermList) : Option Term :=
  match ts with
  | .nil => none
  | .cons t rest =>
    if inLoc loc t.loc then searchTargetTermInTerm loc t
    else searchTargetTermInTerms loc rest

/-- The `*ast.Array` loop of `searchTargetTermInTerm`: the first
element whose recursive result is non-nil and whose span contains the
cursor. -/
def searchTargetTermInArray (loc : Loc) (ts : TermList) : Option Term :=
  match ts with
  | .nil => none
  | .cons t rest =>
    match searchTargetTermInTerm loc t with
    | none => searchTargetTermInArray loc rest
    | some r => if inLoc loc r.loc then some r else searchTargetTermInArray loc rest
end

/-- Model of `searchTargetTermInRule`: the first body expression whose
span contains the cursor is descended into. -/
def searchTargetTermInRule (loc : Loc) (rule : Rule) : Option Term :=
  match rule.body.find? (fun b => inLoc loc b.loc) with
  | none => none
  | some b =>
    match b.terms with
    | .term t => searchTargetTermInTerm loc t
    | .terms ts => searchTargetTermInTerms loc ts

/-- Model of `searchTargetTerm`: look the module up by the cursor's
file, then descend into the first rule whose span contains the cursor
(returning its result even when it is nothing). -/
def searchTargetTerm (p : Project) (loc : Loc) : Option Term :=
  match p.modules loc.file with
  | none => none
  | some module =>
    match module.rules.find? (fun r => inLoc loc r.loc) with
    | none => none
    | some r => searchTargetTermInRule loc r

/-- Model of `searchRuleForTerm`: the first rule of the term's module
whose span contains the term's location. -/
def searchRuleForTerm (p : Project) (term : Term) : Option Rule :=
  match p.modules term.loc.file with
  | none => none
  | some module => module.rules.find? (fun r => inLoc term.loc r.loc)

/-- Model of `cache.CompletionItem`. -/
inductive CompletionKind where
  | Unknown : CompletionKind
  | VariableItem : CompletionKind
  | PackageItem : CompletionKind
  | FunctionItem : CompletionKind
deriving DecidableEq, Repr

/-- A completion candidate: label and kind. -/
structure CompletionItem where
  label : Str
  kind : CompletionKind
deriving DecidableEq, Repr

mutual
/-- Model of `listCompletionItemsInTerm`: every `Var` anywhere inside
the term, as a `VariableItem`; a `Ref` skips its first segment (the
library name); literals contribute nothing. -/
def listCompletionItemsInTerm (target : Term) (term : Term) : List CompletionItem :=
  match term with
  | .mk v _ =>
    match v with
    | .array ts => listCompletionItemsInTermList target ts
    | .ref ts =>
      match ts with
      | .nil => []
      | .cons _ rest => listCompletionItemsInTermList target rest
    | .var s => [{ label := s, kind := .VariableItem }]
    | .string _ => []
    | .number _ => []
    | .boolean _ => []
    | .call _ => []

/-- The slice loops of `listCompletionItemsInTerm`. -/
def listCompletionItemsInTermList (target : Term) (ts : TermList) : List CompletionItem :=
  match ts with
  | .nil => []
  | .cons t rest =>
    listCompletionItemsInTerm target t ++ listCompletionItemsInTermList target rest
end

/-- Whether the operator of an expression given as a term slice is
`ast.Equality` (`eq`) or `ast.Assign` (`assign`): the slice's first
term is a `Ref` of a single `Var` with that name. -/
def exprOperatorIsEqOrAssign (ts : TermList) : Bool :=
  match ts with
  | .cons op _ =>
    match op.value with
    | .ref (.cons o .nil) =>
      match o.value with
      | .var s => s == str "eq" || s == str "assign"
      | _ => false
    | _ => false
  | .nil => false

/-- The per-expression switch of `listCompletionItemsInRule`: a bare
term contributes all its variables; an equality/assignment contributes
the variables of its first operand `t[1]`; other operators contribute
nothing. -/
def exprItems (target : Term) (b : Expr) : List CompletionItem :=
  match b.terms with
  | .term t => listCompletionItemsInTerm target t
  | .terms ts =>
    if exprOperatorIsEqOrAssign ts then
      match termListGet1 ts with
      | some lhs => listCompletionItemsInTerm target lhs
      | none => []
    else []

/-- The body loop of `listCompletionItemsInRule`, which breaks at the
first expression whose offset is at or past the target's offset. -/
def listCompletionItemsInBody (target : Term) : List Expr → List CompletionItem
  | [] => []
  | b :: rest =>
    if b.loc.offset ≥ target.loc.offset then []
    else exprItems target b ++ listCompletionItemsInBody target rest

/-- The head-argument loop of `listCompletionItemsInRule`. -/
def headArgItems : TermList → List CompletionItem
  | .nil => []
  | .cons a rest => { label := termString a, kind := .VariableItem } :: headArgItems rest

/-- Model of `listCompletionItemsInRule`: the head key (when present)
and every head argument as `VariableItem`s, then the body loop. -/
def listCompletionItemsInRule (target : Term) (rule : Rule) : List CompletionItem :=
  (match rule.head.key with
   | some k => [{ label := termString k, kind := .VariableItem }]
   | none => [])
  ++ headArgItems rule.head.args
  ++ listCompletionItemsInBody target rule.body

/-- Model of `listCompletionItemsForTerms`: the target's module's own
imports as `PackageItem`s, then (when the target lies
inside a rule) the rule-scope variables, then one `FunctionItem` per
rule of the module. -/
def listCompletionItemsForTerms (p : Project) (target : Term) : List CompletionItem :=
  match p.modules target.loc.file with
  | none => []
  | some module =>
    (module.imps.map fun i => { label := importToLabel i, kind := CompletionKind.PackageItem })
    ++ (match searchRuleForTerm p target with
        | some rule => listCompletionItemsInRule target rule
        | none => [])
    ++ (module.rules.map fun r => { label := r.head.name, kind := CompletionKind.FunctionItem })

/-- Model of `getTermPrefix`: the rendering of the last segment when
the target is a `Ref` (the Go code panics on an empty `Ref`, which the
parser never produces), else the target's full rendering. -/
def getTermPref (target : Term) : Str :=
  match target.value with
  | .ref ts =>
    match termListGetLast ts with
    | some last => termString last
    | none => []
  | _ => termString target

/-- The filtering loop of `filterCompletionItems`. -/
def keepMatching (pre : Str) : List CompletionItem → List CompletionItem
  | [] => []
  | item :: rest =>
    if List.isPrefixOf pre item.label then item :: keepMatching pre rest
    else keepMatching pre rest

/-- Model of `filterCompletionItems`: keep the candidates whose label
starts with the target's matching text. -/
def filterCompletionItems (target : Term) (list : List CompletionItem) : List CompletionItem :=
  keepMatching (getTermPref target) list

/-- Result of `ListCompletionItems`: either a candidate list, or the
run-time crash that the Go code hits when no target term was located
(`listCompletionItemsForTerms` dereferences `target.Loc().File` on a
nil `target`). -/
inductive CompletionResult where
  | crash : CompletionResult
  | items (xs : List CompletionItem) : CompletionResult
deriving DecidableEq, Repr

/-- Model of `Project.ListCompletionItems`: locate the target term,
then list and filter candidates.  When the search yields no term the Go
code passes nil into `listCompletionItemsForTerms`, which immediately
dereferences it — modelled as `crash`. -/
def ListCompletionItems (p : Project) (loc : Loc) : CompletionResult :=
  match searchTargetTerm p loc with
  | none => .crash
  | some t => .items (filterCompletionItems t (listCompletionItemsForTerms p t))

mutual
/-- Model of `findDefinitionInTerm`: a `Call` scans all elements, a
`Ref` scans the elements after the first, an `*ast.Array` scans its
elements returning the first hit, a `Var` is a hit when its value
equals the target's value and its offset is strictly below the
target's; literals never match. -/
def findDefinitionInTerm (target : Term) (term : Term) : Option Term :=
  match term with
  | .mk v _ =>
    match v with
    | .call ts => findDefinitionInTerms target ts
    | .ref ts =>
      match ts with
      | .nil => none
      | .cons _ rest => findDefinitionInTerms target rest
    | .array ts => findDefinitionInTerms target ts
    | .var _ =>
      if term.value == target.value && target.loc.offset > term.loc.offset then some term
      else none
    | .string _ => none
    | .number _ => none
    | .boolean _ => none

/-- Model of `findDefinitionInTerms`: the first element with a hit.
The `*ast.Array` loop of the Go code has the same first-non-nil
semantics and is modelled by the same function. -/
def findDefinitionInTerms (target : Term) (ts : TermList) : Option Term :=
  match ts with
  | .nil => none
  | .cons t rest =>
    match findDefinitionInTerm target t with
    | some r => some r
    | none => findDefinitionInTerms target rest
end

/-- The body loop of `findDefinitionInRule`: a bare term is searched
whole; an equality/assignment searches its first operand `t[1]`; other
operator expressions are skipped. -/
def findDefinitionInBody (target : Term) : List Expr → Option Term
  | [] => none
  | b :: rest =>
    match b.terms with
    | .term t =>
      match findDefinitionInTerm target t with
      | some r => some r
      | none => findDefinitionInBody target rest
    | .terms ts =>
      if exprOperatorIsEqOrAssign ts then
        match termListGet1 ts with
        | some lhs =>
          match findDefinitionInTerm target lhs with
          | some r => some r
          | none => findDefinitionInBody target rest
        | none => findDefinitionInBody target rest
      else findDefinitionInBody target rest

/-- Model of `findDefinitionInRule`: a multi-segment `Ref` target is
replaced by its first segment; then the head key, the head arguments
and the body are searched in that order. -/
def findDefinitionInRule (term : Term) (rule : Rule) : Option Term :=
  let target :=
    match term.value with
    | .ref (.cons t0 (.cons _ _)) => t0
    | _ => term
  match (match rule.head.key with
         | some k => findDefinitionInTerm target k
         | none => none) with
  | some r => some r
  | none =>
    match findDefinitionInTerms target rule.head.args with
    | some r => some r
    | none => findDefinitionInBody target rule.body

/-- Result of `findImportOutsidePolicy`: the matched import, no match
(a nil return, not an error), or the out-of-range slice panic that the
Go code hits when a scanned import's rendered text contains no dot
(`strings.LastIndex` returns `-1`). -/
inductive FindImportResult where
  | crashNoDot : FindImportResult
  | found (imp : Import) : FindImportResult
  | notFound : FindImportResult
deriving DecidableEq, Repr

/-- Model of `findImportOutsidePolicy`: scan the imports in order; one
matches when its non-empty alias equals the segment, or when the
rendered import text from its last dot on ends with the segment. -/
def findImportOutsidePolicy (moduleName : Str) : List Import → FindImportResult
  | [] => .notFound
  | imp :: rest =>
    if !imp.aliasName.isEmpty && moduleName == imp.aliasName then .found imp
    else
      match fromLastDot (importString imp) with
      | none => .crashNoDot
      | some m =>
        if List.isSuffixOf moduleName m then .found imp
        else findImportOutsidePolicy moduleName rest

/-- Result of `findPolicyRef`: a package path, a nil `ast.Ref` (no
module, or no matching import), or the propagated slice panic. -/
inductive PkgRefResult where
  | crashNoDot : PkgRefResult
  | pkg (segs : List Str) : PkgRefResult
  | noRef : PkgRefResult
deriving DecidableEq, Repr

/-- Model of `findPolicyRef`: a multi-segment `Ref` term resolves its
first segment against the module's imports (the matched import's path);
any other term resolves to the module's own package path. -/
def findPolicyRef (p : Project) (term : Term) : PkgRefResult :=
  match p.modules term.loc.file with
  | none => .noRef
  | some module =>
    match term.value with
    | .ref (.cons t0 (.cons _ _)) =>
      match findImportOutsidePolicy (termString t0) module.imps with
      | .crashNoDot => .crashNoDot
      | .notFound => .noRef
      | .found imp => .pkg imp.path
    | _ => .pkg module.pkg

/-- The matching predicate on one import as the specification words it:
the explicit alias equals the segment, or the import has no alias and
the final component of its dotted path equals the segment. -/
def specImportMatch (s : Str) (imp : Import) : Prop :=
  (imp.aliasName ≠ [] ∧ s = imp.aliasName)
    ∨ (imp.aliasName = [] ∧ imp.path.getLast? = some s)

instance (s : Str) (imp : Import) : Decidable (specImportMatch s imp) := by
  unfold specImportMatch
  infer_instance

/-- The matching predicate on one import that the code actually
implements (total wherever the rendered import text has a dot). -/
def importCodeMatch (s : Str) (imp : Import) : Bool :=
  (!imp.aliasName.isEmpty && s == imp.aliasName)
    || List.isSuffixOf s ((fromLastDot (importString imp)).getD [])

mutual
/-- The `Var` terms that `findDefinitionInTerm` visits, in visit
order: a `Call` or `*ast.Array` contributes all elements, a `Ref` the
elements after its first, a `Var` itself, literals nothing. -/
def termVars (t : Term) : List Term :=
  match t with
  | .mk v _ =>
    match v with
    | .call ts => termsVars ts
    | .ref ts =>
      match ts with
      | .nil => []
      | .cons _ rest => termsVars rest
    | .array ts => termsVars ts
    | .var _ => [t]
    | .string _ => []
    | .number _ => []
    | .boolean _ => []

/-- The `Var` terms of a term slice, in order. -/
def termsVars (ts : TermList) : List Term :=
  match ts with
  | .nil => []
  | .cons t rest => termVars t ++ termsVars rest
end

/-- The `Var` terms that the body walk of `findDefinitionInRule`
visits for one expression: all variables of a bare term, the first
operand's variables of an equality/assignment, nothing otherwise. -/
def exprDefVars (b : Expr) : List Term :=
  match b.terms with
  | .term t => termVars t
  | .terms ts =>
    if exprOperatorIsEqOrAssign ts then
      match termListGet1 ts with
      | some lhs => termVars lhs
      | none => []
    else []

/-- All `Var` terms of a rule in the walk order of
`findDefinitionInRule`: head key, head arguments, then the body
expressions in source order. -/
def ruleVars (rule : Rule) : List Term :=
  (match rule.head.key with
   | some k => termVars k
   | none => [])
  ++ termsVars rule.head.args
  ++ (rule.body.map exprDefVars).flatten

/-! Concrete instances used to exercise the functions. -/

/-- A location with the given text, file and offset. -/
def mkLoc (t f : String) (off : Nat) : Loc :=
  { text := str t, file := str f, row := 1, col := 1, offset := off }

/-- A `Var` term whose location text is its own name. -/
def varT (s fileS : String) (off : Nat) : Term :=
  .mk (.var (str s)) (mkLoc s fileS off)

/-- A `String` term whose location text is its content. -/
def strT (s fileS : String) (off : Nat) : Term :=
  .mk (.string (str s)) (mkLoc s fileS off)

/-- The `eq` operator term of an equality expression. -/
def opEq : Term :=
  .mk (.ref (.cons (varT "eq" "main.rego" 40) .nil)) (mkLoc "eq" "main.rego" 40)

/-- A rule `violation[msg] { msg = "hello"; ms }`: head key `msg` at
offset 25, an equality at offset 40 binding `msg` at offset 42, a bare
`ms` at offset 60; the rule spans offsets 14 to 74. -/
def ruleV : Rule :=
  { head := { name := str "violation", key := some (varT "msg" "main.rego" 25), args := .nil },
    body :=
      [ { terms := .terms (.cons opEq (.cons (varT "msg" "main.rego" 42)
            (.cons (strT "hello" "main.rego" 48) .nil))),
          loc := { text := List.replicate 13 ' ', file := str "main.rego",
                   row := 1, col := 1, offset := 40 } },
        { terms := .term (varT "ms" "main.rego" 60),
          loc := { text := str "ms", file := str "main.rego",
                   row := 1, col := 1, offset := 60 } } ],
    loc := { text := List.replicate 60 ' ', file := str "main.rego",
             row := 1, col := 1, offset := 14 } }

/-- The import declaration `data.lib` without an alias. -/
def impLib : Import := { path := [str "data", str "lib"], aliasName := [] }

/-- A module for `src.rego`: package `data.src`, no import
declarations, the single rule `ruleV`. -/
def srcModule : Module :=
  { pkg := [str "data", str "src"], imps := [], rules := [ruleV] }

/-- A module for `main.rego` that does declare `data.lib`. -/
def mainModule : Module :=
  { pkg := [str "data", str "main"], imps := [impLib], rules := [ruleV] }

/-- A rule `is_hello(msg)` with one head argument. -/
def ruleIsHello : Rule :=
  { head := { name := str "is_hello", key := none,
              args := .cons (varT "msg" "lib.rego" 30) .nil },
    body := [],
    loc := { text := List.replicate 30 ' ', file := str "lib.rego",
             row := 1, col := 1, offset := 20 } }

/-- A module for `lib.rego`: package `data.lib`. -/
def libModule : Module :=
  { pkg := [str "data", str "lib"], imps := [], rules := [ruleIsHello] }

/-- Two rules both named `f` (two clauses of one rule). -/
def ruleF1 : Rule :=
  { head := { name := str "f", key := none, args := .nil },
    body := [],
    loc := { text := List.replicate 10 ' ', file := str "dup.rego",
             row := 1, col := 1, offset := 20 } }

/-- The second clause named `f`. -/
def ruleF2 : Rule :=
  { head := { name := str "f", key := none, args := .nil },
    body := [],
    loc := { text := List.replicate 10 ' ', file := str "dup.rego",
             row := 1, col := 1, offset := 40 } }

/-- A module for `dup.rego` with the two clauses of `f`. -/
def dupModule : Module :=
  { pkg := [str "data", str "dup"], imps := [], rules := [ruleF1, ruleF2] }

/-- A loaded project with four files and no overlays. -/
def cexProj : Project :=
  { rootPath := [],
    openFiles := fun _ => none,
    modules := fun q =>
      if q = str "src.rego" then some srcModule
      else if q = str "lib.rego" then some libModule
      else if q = str "dup.rego" then some dupModule
      else if q = str "main.rego" then some mainModule
      else none,
    errs := fun _ => none }

/-- A deterministic parser: the text `bad` fails with one syntax
diagnostic, anything else parses to `libModule`. -/
def parseW : Str → ParseResult := fun t =>
  if t = str "bad" then .syntaxErr [{ message := str "unexpected token" }]
  else .ok libModule

/-- A whole-project compile that finds nothing. -/
def compileW : (Str → Option Module) → List RegoError := fun _ => []

/-! Helper lemmas. -/

/-- Updating the same key twice keeps only the second value. -/
theorem updateMap_override {α : Type} (m : Str → Option α) (k : Str) (v w : Option α) :
    updateMap (updateMap m k v) k w = updateMap m k w := by
  funext q
  by_cases h : q = k <;> simp [updateMap, h]

/-- Reading the key just written. -/
theorem updateMap_same {α : Type} (m : Str → Option α) (k : Str) (v : Option α) :
    updateMap m k v k = v := by
  simp [updateMap]

/-! C9. -/

/-- C9: applying `UpdateFile` twice with identical path, text and
version yields the same store state (and the same ok/error result) as
applying it once, so every subsequent query returns identical
results. -/
theorem UpdateFile_idempotent (parse : Str → ParseResult) (p : Project)
    (path text : Str) (version : Int) :
    UpdateFile parse (UpdateFile parse p path text version).1 path text version
      = UpdateFile parse p path text version := by
  cases h : parse text with
  | ok m => simp [UpdateFile, h, updateMap_override]
  | syntaxErr es => simp [UpdateFile, h, updateMap_override]
  | fatal => simp [UpdateFile, h, updateMap_override]

/-! C1. -/

/-- C1: when the new text fails to parse with syntax errors, the stored
module map is untouched, the error set for the path becomes the new
diagnostics, `GetErrors` serves them (at least one when the diagnostic
set is non-empty) and the call returns ok; when the text parses, the
module for the path is replaced and the error set is cleared. -/
theorem UpdateFile_syntax_failure_behavior (parse : Str → ParseResult)
    (compile : (Str → Option Module) → List RegoError) (p : Project)
    (path text : Str) (version : Int) :
    (∀ es, parse text = .syntaxErr es →
      (UpdateFile parse p path text version).2 = true
      ∧ (UpdateFile parse p path text version).1.modules = p.modules
      ∧ (UpdateFile parse p path text version).1.errs path = some es
      ∧ GetErrors compile (UpdateFile parse p path text version).1 path = es
      ∧ (es ≠ [] → GetErrors compile (UpdateFile parse p path text version).1 path ≠ []))
    ∧ (∀ m, parse text = .ok m →
      (UpdateFile parse p path text version).2 = true
      ∧ (UpdateFile parse p path text version).1.modules path = some m
      ∧ (UpdateFile parse p path text version).1.errs path = none) := by
  constructor
  · intro es h
    refine ⟨?_, ?_, ?_, ?_, ?_⟩ <;>
      simp [UpdateFile, h, GetErrors, updateMap_same]
  · intro m h
    refine ⟨?_, ?_, ?_⟩ <;>
      simp [UpdateFile, h, updateMap_same]

/-- C1 witness: the behavior at a concrete store, path and failing
text. -/
theorem UpdateFile_syntax_failure_behavior_witness :
    parseW (str "bad") = .syntaxErr [{ message := str "unexpected token" }]
    ∧ ((UpdateFile parseW cexProj (str "src.rego") (str "bad") 2).2 = true
       ∧ (UpdateFile parseW cexProj (str "src.rego") (str "bad") 2).1.modules = cexProj.modules
       ∧ (UpdateFile parseW cexProj (str "src.rego") (str "bad") 2).1.errs (str "src.rego")
           = some [{ message := str "unexpected token" }]
       ∧ GetErrors compileW (UpdateFile parseW cexProj (str "src.rego") (str "bad") 2).1 (str "src.rego")
           = [{ message := str "unexpected token" }]
       ∧ ([{ message := str "unexpected token" }] ≠ ([] : List RegoError) →
          GetErrors compileW (UpdateFile parseW cexProj (str "src.rego") (str "bad") 2).1 (str "src.rego") ≠ [])) :=
  ⟨by decide,
   (UpdateFile_syntax_failure_behavior parseW compileW cexProj
      (str "src.rego") (str "bad") 2).1
     [{ message := str "unexpected token" }] (by decide)⟩

/-! C10. -/

/-- C10: at a cursor location for which no target term is found (here:
an offset inside a loaded file but outside every rule's span),
`ListCompletionItems` does not return an empty candidate list — it hits
the nil-pointer dereference in `listCompletionItemsForTerms`
(`target.Loc().File` on the nil located term). -/
theorem ListCompletionItems_crash_on_no_target :
    ListCompletionItems cexProj (mkLoc "" "src.rego" 0) = .crash
    ∧ searchTargetTerm cexProj (mkLoc "" "src.rego" 0) = none := by
  decide

/-! C3: the definition search returns the first prior binding in walk
order. -/

/-- The `Var` hit test of `findDefinitionInTerm`: same value as the
target and an offset strictly below the target's. -/
def defPred (target : Term) (d : Term) : Bool :=
  d.value == target.value && decide (target.loc.offset > d.loc.offset)

mutual
/-- `findDefinitionInTerm` finds the first visit-order `Var` passing
the hit test. -/
theorem findDefinitionInTerm_eq_find (target t : Term) :
    findDefinitionInTerm target t = (termVars t).find? (defPred target) := by
  cases t with
  | mk v l =>
    cases v with
    | call ts =>
      simpa [findDefinitionInTerm, termVars] using findDefinitionInTerms_eq_find target ts
    | ref ts =>
      cases ts with
      | nil => simp [findDefinitionInTerm, termVars]
      | cons h rest =>
        simpa [findDefinitionInTerm, termVars] using findDefinitionInTerms_eq_find target rest
    | array ts =>
      simpa [findDefinitionInTerm, termVars] using findDefinitionInTerms_eq_find target ts
    | var s =>
      simp only [findDefinitionInTerm, termVars, List.find?, defPred]
      cases hc : ((Term.mk (Value.var s) l).value == target.value &&
          decide (target.loc.offset > (Term.mk (Value.var s) l).loc.offset)) <;> simp [hc]
    | string s => simp [findDefinitionInTerm, termVars]
    | number s => simp [findDefinitionInTerm, termVars]
    | boolean b => simp [findDefinitionInTerm, termVars]

/-- `findDefinitionInTerms` finds the first visit-order `Var` of the
slice passing the hit test. -/
theorem findDefinitionInTerms_eq_find (target : Term) (ts : TermList) :
    findDefinitionInTerms target ts = (termsVars ts).find? (defPred target) := by
  cases ts with
  | nil => simp [findDefinitionInTerms, termsVars]
  | cons t rest =>
    rw [findDefinitionInTerms, termsVars, List.find?_append,
      findDefinitionInTerm_eq_find target t, findDefinitionInTerms_eq_find target rest]
    cases h : (termVars t).find? (defPred target) <;> simp [h]
end

/-- The body loop of the definition search finds the first hit over the
flattened per-expression variables. -/
theorem findDefinitionInBody_eq_find (target : Term) (body : List Expr) :
    findDefinitionInBody target body
      = ((body.map exprDefVars).flatten).find? (defPred target) := by
  induction body with
  | nil => simp [findDefinitionInBody]
  | cons b rest ih =>
    rw [List.map_cons, List.flatten_cons, List.find?_append, ← ih]
    cases hb : b.terms with
    | term t =>
      simp only [findDefinitionInBody, hb, exprDefVars, findDefinitionInTerm_eq_find]
      cases h : (termVars t).find? (defPred target) <;> simp [h]
    | terms ts =>
      cases hop : exprOperatorIsEqOrAssign ts with
      | true =>
        cases hg : termListGet1 ts with
        | none => simp [findDefinitionInBody, hb, hop, hg, exprDefVars]
        | some lhs =>
          simp only [findDefinitionInBody, hb, exprDefVars, hop, if_true, hg,
            findDefinitionInTerm_eq_find]
          cases h : (termVars lhs).find? (defPred target) <;> simp [h]
      | false => simp [findDefinitionInBody, hb, hop, exprDefVars]

/-- When the target is a plain variable, `findDefinitionInRule` finds
the first walk-order `Var` (head key, head arguments, body in source
order) passing the hit test. -/
theorem findDefinitionInRule_eq_find (target : Term) (rule : Rule) (n : Str)
    (hv : target.value = Value.var n) :
    findDefinitionInRule target rule = (ruleVars rule).find? (defPred target) := by
  rw [findDefinitionInRule, ruleVars]
  have hmt :
      (match target.value with
        | .ref (.cons t0 (.cons _ _)) => t0
        | _ => target) = target := by
    rw [hv]
  rw [hmt, List.find?_append, List.find?_append]
  cases hk : rule.head.key with
  | none =>
    simp only [findDefinitionInTerms_eq_find, findDefinitionInBody_eq_find,
      List.find?_nil, Option.none_or]
    cases h : (termsVars rule.head.args).find? (defPred target) <;> simp [h]
  | some k =>
    simp only [findDefinitionInTerm_eq_find, findDefinitionInTerms_eq_find,
      findDefinitionInBody_eq_find]
    cases hfk : (termVars k).find? (defPred target) with
    | some r => simp [hfk]
    | none =>
      simp only [hfk, Option.none_or]
      cases h : (termsVars rule.head.args).find? (defPred target) <;> simp [h]

/-- C3: for a variable use `target` in a rule with at least one
binding of the same name at a strictly earlier offset (head key, head
argument or body binding in walk order), the in-rule definition search
returns precisely the first walk-order `Var` with the target's name and
a strictly smaller offset. -/
theorem findDefinitionInRule_first_prior_binding (target : Term) (rule : Rule) (n : Str)
    (hv : target.value = Value.var n)
    (hex : ∃ d ∈ ruleVars rule, d.value = target.value ∧ d.loc.offset < target.loc.offset) :
    findDefinitionInRule target rule = (ruleVars rule).find? (defPred target)
    ∧ ∃ d, findDefinitionInRule target rule = some d
        ∧ d.value = Value.var n ∧ d.loc.offset < target.loc.offset := by
  have hchar := findDefinitionInRule_eq_find target rule n hv
  refine ⟨hchar, ?_⟩
  obtain ⟨d0, hd0mem, hd0v, hd0off⟩ := hex
  cases hfind : (ruleVars rule).find? (defPred target) with
  | none =>
    exfalso
    have := List.find?_eq_none.mp hfind d0 hd0mem
    apply this
    simp [defPred, hd0v, hd0off]
  | some d =>
    have hp := List.find?_some hfind
    have hval : d.value = target.value := by
      have := (Bool.and_eq_true _ _).mp hp
      exact eq_of_beq this.1
    have hoff : target.loc.offset > d.loc.offset := by
      have := (Bool.and_eq_true _ _).mp hp
      exact of_decide_eq_true this.2
    exact ⟨d, by rw [hchar, hfind], by rw [hval, hv], hoff⟩

/-- C3 witness: in `ruleV`, the use `msg` at offset 55 resolves to the
head key `msg` at offset 25, the first prior binding in walk order. -/
theorem findDefinitionInRule_first_prior_binding_witness :
    ((varT "msg" "main.rego" 55).value = Value.var (str "msg"))
    ∧ (∃ d ∈ ruleVars ruleV, d.value = (varT "msg" "main.rego" 55).value
        ∧ d.loc.offset < (varT "msg" "main.rego" 55).loc.offset)
    ∧ (findDefinitionInRule (varT "msg" "main.rego" 55) ruleV
        = (ruleVars ruleV).find? (defPred (varT "msg" "main.rego" 55))
      ∧ ∃ d, findDefinitionInRule (varT "msg" "main.rego" 55) ruleV = some d
          ∧ d.value = Value.var (str "msg")
          ∧ d.loc.offset < (varT "msg" "main.rego" 55).loc.offset) :=
  ⟨by decide, by decide,
   findDefinitionInRule_first_prior_binding (varT "msg" "main.rego" 55) ruleV
     (str "msg") (by decide) (by decide)⟩

/-! C2: scope ordering of completion candidates in a rule. -/

/-- Membership in the head-argument items. -/
theorem headArgItems_mem (item : CompletionItem) :
    (ts : TermList) →
      (item ∈ headArgItems ts
        ↔ ∃ a ∈ ts.toList, item = { label := termString a, kind := .VariableItem })
  | .nil => by simp [headArgItems, TermList.toList]
  | .cons a rest => by
    have ih := headArgItems_mem item rest
    simp only [headArgItems, TermList.toList, List.mem_cons, ih]
    constructor
    · rintro (h | ⟨a2, ha2, h2⟩)
      · exact ⟨a, Or.inl rfl, h⟩
      · exact ⟨a2, Or.inr ha2, h2⟩
    · rintro ⟨a2, (rfl | ha2), h2⟩
      · exact Or.inl h2
      · exact Or.inr ⟨a2, ha2, h2⟩

/-- Provenance of an item of the body loop: it comes from an
expression strictly before the target's offset. -/
theorem listCompletionItemsInBody_mem (target : Term) (item : CompletionItem)
    (body : List Expr) (h : item ∈ listCompletionItemsInBody target body) :
    ∃ b ∈ body, b.loc.offset < target.loc.offset ∧ item ∈ exprItems target b := by
  induction body with
  | nil => simp [listCompletionItemsInBody] at h
  | cons b rest ih =>
    by_cases hb : b.loc.offset ≥ target.loc.offset
    · rw [listCompletionItemsInBody, if_pos hb] at h
      simp at h
    · rw [listCompletionItemsInBody, if_neg hb] at h
      rcases List.mem_append.mp h with h1 | h2
      · exact ⟨b, List.mem_cons_self b rest, by omega, h1⟩
      · obtain ⟨b2, hb2, hlt, hmem⟩ := ih h2
        exact ⟨b2, List.mem_cons_of_mem b hb2, hlt, hmem⟩

/-- Provenance of every candidate of the in-rule completion: the head
key, a head argument, or a variable of a body expression strictly
before the target. -/
theorem listCompletionItemsInRule_mem (target : Term) (rule : Rule)
    (item : CompletionItem) (h : item ∈ listCompletionItemsInRule target rule) :
    (∃ k, rule.head.key = some k
        ∧ item = { label := termString k, kind := .VariableItem })
    ∨ (∃ a ∈ rule.head.args.toList,
        item = { label := termString a, kind := .VariableItem })
    ∨ (∃ b ∈ rule.body, b.loc.offset < target.loc.offset ∧ item ∈ exprItems target b) := by
  rw [listCompletionItemsInRule] at h
  rcases List.mem_append.mp h with h12 | h3
  · rcases List.mem_append.mp h12 with h1 | h2
    · left
      cases hk : rule.head.key with
      | none => rw [hk] at h1; simp at h1
      | some k =>
        rw [hk] at h1
        simp at h1
        exact ⟨k, rfl, h1⟩
    · right; left
      exact (headArgItems_mem item rule.head.args).mp h2
  · right; right
    exact listCompletionItemsInBody_mem target item rule.body h3

/-- The head key item is always produced. -/
theorem listCompletionItemsInRule_key_mem (target : Term) (rule : Rule)
    (k : Term) (hk : rule.head.key = some k) :
    ({ label := termString k, kind := .VariableItem } : CompletionItem)
      ∈ listCompletionItemsInRule target rule := by
  rw [listCompletionItemsInRule, hk]
  apply List.mem_append_left
  apply List.mem_append_left
  simp

/-- Every head-argument item is always produced. -/
theorem listCompletionItemsInRule_arg_mem (target : Term) (rule : Rule)
    (a : Term) (ha : a ∈ rule.head.args.toList) :
    ({ label := termString a, kind := .VariableItem } : CompletionItem)
      ∈ listCompletionItemsInRule target rule := by
  rw [listCompletionItemsInRule]
  apply List.mem_append_left
  apply List.mem_append_right
  exact (headArgItems_mem _ rule.head.args).mpr ⟨a, ha, rfl⟩

/-- C2: every candidate of the in-rule completion is the head key, a
head argument, or a variable of a body expression whose offset is
strictly below the target's offset; and the head key and every head
argument are always included, regardless of the target's position. -/
theorem listCompletionItemsInRule_scope (target : Term) (rule : Rule) :
    (∀ item, item ∈ listCompletionItemsInRule target rule →
      (∃ k, rule.head.key = some k
          ∧ item = { label := termString k, kind := .VariableItem })
      ∨ (∃ a ∈ rule.head.args.toList,
          item = { label := termString a, kind := .VariableItem })
      ∨ (∃ b ∈ rule.body, b.loc.offset < target.loc.offset ∧ item ∈ exprItems target b))
    ∧ (∀ k, rule.head.key = some k →
        ({ label := termString k, kind := .VariableItem } : CompletionItem)
          ∈ listCompletionItemsInRule target rule)
    ∧ (∀ a ∈ rule.head.args.toList,
        ({ label := termString a, kind := .VariableItem } : CompletionItem)
          ∈ listCompletionItemsInRule target rule) :=
  ⟨listCompletionItemsInRule_mem target rule,
   listCompletionItemsInRule_key_mem target rule,
   listCompletionItemsInRule_arg_mem target rule⟩

/-- C2 witness: in `ruleV` with the target at offset 60, the candidate
`msg` (bound by the equality at offset 40) is covered by the scope
disjunction, and the head key is included. -/
theorem listCompletionItemsInRule_scope_witness :
    (({ label := str "msg", kind := .VariableItem } : CompletionItem)
        ∈ listCompletionItemsInRule (varT "m" "main.rego" 60) ruleV)
    ∧ ((∃ k, ruleV.head.key = some k
          ∧ ({ label := str "msg", kind := .VariableItem } : CompletionItem)
              = { label := termString k, kind := .VariableItem })
      ∨ (∃ a ∈ ruleV.head.args.toList,
          ({ label := str "msg", kind := .VariableItem } : CompletionItem)
              = { label := termString a, kind := .VariableItem })
      ∨ (∃ b ∈ ruleV.body, b.loc.offset < (varT "m" "main.rego" 60).loc.offset
          ∧ ({ label := str "msg", kind := .VariableItem } : CompletionItem)
              ∈ exprItems (varT "m" "main.rego" 60) b)) :=
  ⟨by decide,
   (listCompletionItemsInRule_scope (varT "m" "main.rego" 60) ruleV).1
     { label := str "msg", kind := .VariableItem } (by decide)⟩

/-! Kinds of the candidates produced by the various sources. -/

mutual
/-- Every candidate of `listCompletionItemsInTerm` is a variable. -/
theorem listCompletionItemsInTerm_kinds (target t : Term) :
    ∀ item ∈ listCompletionItemsInTerm target t, item.kind = .VariableItem := by
  cases t with
  | mk v l =>
    cases v with
    | array ts =>
      simpa [listCompletionItemsInTerm] using listCompletionItemsInTermList_kinds target ts
    | ref ts =>
      cases ts with
      | nil => simp [listCompletionItemsInTerm]
      | cons h rest =>
        simpa [listCompletionItemsInTerm] using listCompletionItemsInTermList_kinds target rest
    | var s => simp [listCompletionItemsInTerm]
    | string s => simp [listCompletionItemsInTerm]
    | number s => simp [listCompletionItemsInTerm]
    | boolean b => simp [listCompletionItemsInTerm]
    | call ts => simp [listCompletionItemsInTerm]

/-- Every candidate of the slice loops is a variable. -/
theorem listCompletionItemsInTermList_kinds (target : Term) (ts : TermList) :
    ∀ item ∈ listCompletionItemsInTermList target ts, item.kind = .VariableItem := by
  cases ts with
  | nil => simp [listCompletionItemsInTermList]
  | cons t rest =>
    intro item h
    rcases List.mem_append.mp h with h1 | h2
    · exact listCompletionItemsInTerm_kinds target t item h1
    · exact listCompletionItemsInTermList_kinds target rest item h2
end

/-- Every candidate of the in-rule completion is a variable. -/
theorem listCompletionItemsInRule_kinds (target : Term) (rule : Rule) :
    ∀ item ∈ listCompletionItemsInRule target rule, item.kind = .VariableItem := by
  intro item h
  rcases listCompletionItemsInRule_mem target rule item h with
    ⟨k, _, rfl⟩ | ⟨a, _, rfl⟩ | ⟨b, _, _, hmem⟩
  · rfl
  · rfl
  · cases hb : b.terms with
    | term t =>
      simp only [exprItems, hb] at hmem
      exact listCompletionItemsInTerm_kinds target t item hmem
    | terms ts =>
      cases hop : exprOperatorIsEqOrAssign ts with
      | true =>
        cases hg : termListGet1 ts with
        | none => simp [exprItems, hb, hop, hg] at hmem
        | some lhs =>
          simp [exprItems, hb, hop, hg] at hmem
          exact listCompletionItemsInTerm_kinds target lhs item hmem
      | false => simp [exprItems, hb, hop] at hmem

/-! C4: Package-kind candidates. -/

/-- C4 counterexample: `lib.rego` (package `data.lib`) is loaded, is
not the package of the current module `src.rego` and is not imported
by it, yet the candidate list for a target in `src.rego` contains no
Package-kind item at all — the code only renders the current module's
own import declarations. -/
theorem import_suggestions_cex :
    cexProj.modules (str "lib.rego") = some libModule
    ∧ cexProj.modules (str "src.rego") = some srcModule
    ∧ libModule.pkg ≠ srcModule.pkg
    ∧ srcModule.imps = []
    ∧ ((listCompletionItemsForTerms cexProj (varT "m" "src.rego" 60)).filter
        (fun i => i.kind == CompletionKind.PackageItem)) = [] := by
  decide

/-- C4 amended: the Package-kind candidates are exactly one item per
declared import of the current module, labeled by
`importToLabel` (the alias when present, else the text after the last
dot of the rendered import); packages of other loaded modules that are
not imported are not suggested. -/
theorem packageItems_come_from_imports (p : Project) (target : Term) (module : Module)
    (h : p.modules target.loc.file = some module) :
    (∀ imp ∈ module.imps,
      ({ label := importToLabel imp, kind := .PackageItem } : CompletionItem)
        ∈ listCompletionItemsForTerms p target)
    ∧ (∀ item ∈ listCompletionItemsForTerms p target, item.kind = .PackageItem →
        ∃ imp ∈ module.imps,
          item = { label := importToLabel imp, kind := .PackageItem }) := by
  constructor
  · intro imp himp
    rw [listCompletionItemsForTerms, h]
    apply List.mem_append_left
    apply List.mem_append_left
    exact List.mem_map.mpr ⟨imp, himp, rfl⟩
  · intro item hitem hkind
    rw [listCompletionItemsForTerms, h] at hitem
    rcases List.mem_append.mp hitem with h12 | h3
    · rcases List.mem_append.mp h12 with h1 | h2
      · obtain ⟨imp, himp, heq⟩ := List.mem_map.mp h1
        exact ⟨imp, himp, heq.symm⟩
      · exfalso
        cases hr : searchRuleForTerm p target with
        | none => rw [hr] at h2; simp at h2
        | some rule =>
          rw [hr] at h2
          have := listCompletionItemsInRule_kinds target rule item h2
          rw [this] at hkind
          exact absurd hkind (by decide)
    · exfalso
      obtain ⟨r, _, heq⟩ := List.mem_map.mp h3
      rw [← heq] at hkind
      simp at hkind

/-- C4 amended witness: in `main.rego`, which imports `data.lib`, the
Package-kind candidate labeled `lib` is produced, and every
Package-kind candidate comes from an import declaration. -/
theorem packageItems_come_from_imports_witness :
    cexProj.modules ((varT "m" "main.rego" 60).loc.file) = some mainModule
    ∧ ((∀ imp ∈ mainModule.imps,
        ({ label := importToLabel imp, kind := .PackageItem } : CompletionItem)
          ∈ listCompletionItemsForTerms cexProj (varT "m" "main.rego" 60))
      ∧ (∀ item ∈ listCompletionItemsForTerms cexProj (varT "m" "main.rego" 60),
          item.kind = .PackageItem →
          ∃ imp ∈ mainModule.imps,
            item = { label := importToLabel imp, kind := .PackageItem })) :=
  ⟨by decide,
   packageItems_come_from_imports cexProj (varT "m" "main.rego" 60) mainModule (by decide)⟩

/-! C5: one Function-kind candidate per rule clause, no dedup. -/

/-- Counting Function-kind items of the rules map. -/
theorem functionItems_of_rules_count (rules : List Rule) (n : Str) :
    ((rules.map (fun r =>
        ({ label := r.head.name, kind := .FunctionItem } : CompletionItem))).filter
      (fun i => i.kind == CompletionKind.FunctionItem && i.label == n)).length
    = (rules.filter (fun r => r.head.name == n)).length := by
  induction rules with
  | nil => simp
  | cons r rest ih =>
    rw [List.map_cons, List.filter_cons, List.filter_cons]
    cases hn : r.head.name == n with
    | true => simp [hn, ih]
    | false => simp [hn, ih]

/-- A filter over candidates that all fail the test is empty. -/
theorem filter_function_of_kinds (pred : CompletionItem → Bool)
    (l : List CompletionItem)
    (hall : ∀ item ∈ l, pred item = false) : l.filter pred = [] := by
  induction l with
  | nil => rfl
  | cons x rest ih =>
    rw [List.filter_cons, hall x (List.mem_cons_self x rest)]
    exact ih (fun item h => hall item (List.mem_cons_of_mem x h))

/-- C5 counterexample: `dup.rego` holds two rules (clauses) named `f`,
and the candidate list contains two Function-kind candidates labeled
`f`, not exactly one. -/
theorem function_dedup_cex :
    dupModule.rules.map (fun r => r.head.name) = [str "f", str "f"]
    ∧ ((listCompletionItemsForTerms cexProj (varT "f" "dup.rego" 5)).filter
        (fun i => i.kind == CompletionKind.FunctionItem && i.label == str "f")).length = 2 := by
  decide

/-- C5 amended: the candidate list contains one Function-kind
candidate per rule clause of the current module — for a head name with
k clauses, exactly k candidates with that label, with no
deduplication. -/
theorem functionItems_count_matches_rules (p : Project) (target : Term) (module : Module)
    (n : Str) (h : p.modules target.loc.file = some module) :
    ((listCompletionItemsForTerms p target).filter
      (fun i => i.kind == CompletionKind.FunctionItem && i.label == n)).length
    = (module.rules.filter (fun r => r.head.name == n)).length := by
  have hP : ((module.imps.map fun i =>
      ({ label := importToLabel i, kind := .PackageItem } : CompletionItem)).filter
      (fun i => i.kind == CompletionKind.FunctionItem && i.label == n)) = [] := by
    apply filter_function_of_kinds
    intro item hitem
    obtain ⟨imp, _, heq⟩ := List.mem_map.mp hitem
    rw [← heq]
    simp
  rw [listCompletionItemsForTerms, h]
  cases hr : searchRuleForTerm p target with
  | none =>
    simp [List.filter_append, hP, functionItems_of_rules_count module.rules n]
  | some rule =>
    have hS : ((listCompletionItemsInRule target rule).filter
        (fun i => i.kind == CompletionKind.FunctionItem && i.label == n)) = [] := by
      apply filter_function_of_kinds
      intro item hitem
      have hk := listCompletionItemsInRule_kinds target rule item hitem
      rw [Bool.and_eq_false_iff]
      left
      rw [hk]
      rfl
    simp [List.filter_append, hP, hS, functionItems_of_rules_count module.rules n]

/-- C5 amended witness: in `dup.rego` the two clauses of `f` yield a
Function-kind candidate count of two, equal to the clause count. -/
theorem functionItems_count_matches_rules_witness :
    cexProj.modules ((varT "f" "dup.rego" 5).loc.file) = some dupModule
    ∧ ((listCompletionItemsForTerms cexProj (varT "f" "dup.rego" 5)).filter
        (fun i => i.kind == CompletionKind.FunctionItem && i.label == str "f")).length
      = (dupModule.rules.filter (fun r => r.head.name == str "f")).length :=
  ⟨by decide,
   functionItems_count_matches_rules cexProj (varT "f" "dup.rego" 5) dupModule
     (str "f") (by decide)⟩

/-! C6: import/alias matching. -/

/-- C6 counterexample: for the aliasless import of `data.lib` and the
segment `ib`, the code matches (the text from the last dot, `.lib`,
ends with `ib`) although the spec predicate — alias equality, or final
path component equality for an aliasless import — does not hold. -/
theorem findImportOutsidePolicy_cex :
    findImportOutsidePolicy (str "ib") [impLib] = .found impLib
    ∧ ¬ specImportMatch (str "ib") impLib := by
  decide

/-- C6 amended: provided every scanned import's rendered text contains
a dot (otherwise the Go slice expression panics), the resolution
returns the first import whose non-empty alias equals the segment or
whose rendered text from the last dot on ends with the segment — the
suffix fallback runs even for aliased imports — and `notFound` (a nil
return, not an error) when no import matches. -/
theorem findImportOutsidePolicy_first_code_match (s : Str) (imps : List Import)
    (hdot : ∀ imp ∈ imps, fromLastDot (importString imp) ≠ none) :
    findImportOutsidePolicy s imps =
      match imps.find? (importCodeMatch s) with
      | some imp => .found imp
      | none => .notFound := by
  induction imps with
  | nil => simp [findImportOutsidePolicy]
  | cons imp rest ih =>
    have hd : fromLastDot (importString imp) ≠ none :=
      hdot imp (List.mem_cons_self imp rest)
    obtain ⟨m, hm⟩ : ∃ m, fromLastDot (importString imp) = some m := by
      cases hx : fromLastDot (importString imp) with
      | none => exact absurd hx hd
      | some m => exact ⟨m, rfl⟩
    cases halias : (!imp.aliasName.isEmpty && s == imp.aliasName) with
    | true =>
      have hmatch : importCodeMatch s imp = true := by
        simp [importCodeMatch, halias]
      simp [findImportOutsidePolicy, halias, List.find?, hmatch]
    | false =>
      cases hsuf : List.isSuffixOf s m with
      | true =>
        have hmatch : importCodeMatch s imp = true := by
          simp [importCodeMatch, halias, hm, hsuf]
        simp [findImportOutsidePolicy, halias, hm, hsuf, List.find?, hmatch]
      | false =>
        have hmatch : importCodeMatch s imp = false := by
          simp [importCodeMatch, halias, hm, hsuf]
        have ih2 := ih (fun i hi => hdot i (List.mem_cons_of_mem imp hi))
        simp [findImportOutsidePolicy, halias, hm, hsuf, List.find?, hmatch, ih2]

/-- C6 amended witness: the segment `lib` resolves against the
aliasless import of `data.lib` to that import, the first code match. -/
theorem findImportOutsidePolicy_first_code_match_witness :
    (∀ imp ∈ [impLib], fromLastDot (importString imp) ≠ none)
    ∧ findImportOutsidePolicy (str "lib") [impLib] =
        (match [impLib].find? (importCodeMatch (str "lib")) with
         | some imp => FindImportResult.found imp
         | none => FindImportResult.notFound) :=
  ⟨by decide, findImportOutsidePolicy_first_code_match (str "lib") [impLib] (by decide)⟩

/-! C7: the two-segment qualified-access special case. -/

/-- C7: for a two-segment chain whose first segment is a `Var` and
whose second is a `String`, a cursor inside either segment's span
yields the synthesized compound term of both segments, carrying the
first segment's file, row, column and offset. -/
theorem searchTargetTermInTerm_two_segment (loc : Loc) (t0 t1 : Term) (l : Loc) (a b : Str)
    (h0 : t0.value = Value.var a) (h1 : t1.value = Value.string b)
    (hin : inLoc loc t0.loc = true ∨ inLoc loc t1.loc = true) :
    searchTargetTermInTerm loc (Term.mk (.ref (.cons t0 (.cons t1 .nil))) l)
      = some (Term.mk (.ref (.cons t0 (.cons t1 .nil)))
          { text := valueString (.ref (.cons t0 (.cons t1 .nil))),
            file := t0.loc.file, row := t0.loc.row,
            col := t0.loc.col, offset := t0.loc.offset }) := by
  cases t0 with
  | mk v0 l0 =>
    cases t1 with
    | mk v1 l1 =>
      simp only [Term.value] at h0 h1
      subst h0
      subst h1
      have hcond : (inLoc loc l0 || inLoc loc l1) = true := by
        rcases hin with h | h <;> simp [Term.loc] at h <;> simp [h]
      simp [searchTargetTermInTerm, Term.value, Term.loc, hcond]

/-- The concrete two-segment chain `lib.i`. -/
def refLibI : Term :=
  .mk (.ref (.cons (varT "lib" "main.rego" 100) (.cons (strT "i" "main.rego" 104) .nil)))
    (mkLoc "lib.i" "main.rego" 100)

/-- C7 witness: a cursor at offset 105, inside the second segment of
`lib.i`, yields the synthesized compound term at the first segment's
position. -/
theorem searchTargetTermInTerm_two_segment_witness :
    ((varT "lib" "main.rego" 100).value = Value.var (str "lib"))
    ∧ ((strT "i" "main.rego" 104).value = Value.string (str "i"))
    ∧ (inLoc (mkLoc "" "main.rego" 105) (varT "lib" "main.rego" 100).loc = true
        ∨ inLoc (mkLoc "" "main.rego" 105) (strT "i" "main.rego" 104).loc = true)
    ∧ searchTargetTermInTerm (mkLoc "" "main.rego" 105) refLibI
        = some (Term.mk
            (.ref (.cons (varT "lib" "main.rego" 100) (.cons (strT "i" "main.rego" 104) .nil)))
            { text := valueString
                (.ref (.cons (varT "lib" "main.rego" 100) (.cons (strT "i" "main.rego" 104) .nil))),
              file := (varT "lib" "main.rego" 100).loc.file,
              row := (varT "lib" "main.rego" 100).loc.row,
              col := (varT "lib" "main.rego" 100).loc.col,
              offset := (varT "lib" "main.rego" 100).loc.offset }) :=
  ⟨by decide, by decide, Or.inr (by decide),
   searchTargetTermInTerm_two_segment (mkLoc "" "main.rego" 105)
     (varT "lib" "main.rego" 100) (strT "i" "main.rego" 104)
     (mkLoc "lib.i" "main.rego" 100) (str "lib") (str "i")
     (by decide) (by decide) (Or.inr (by decide))⟩

/-! C8: prefix filtering. -/

/-- The filtering loop is the plain filter by label-starts-with. -/
theorem keepMatching_eq_filter (pre : Str) (l : List CompletionItem) :
    keepMatching pre l = l.filter (fun item => List.isPrefixOf pre item.label) := by
  induction l with
  | nil => rfl
  | cons x rest ih =>
    rw [List.filter_cons]
    cases h : List.isPrefixOf pre x.label <;> simp [keepMatching, h, ih]

/-- C8: filtering keeps exactly the candidates whose label starts
(plain, case-sensitive) with the matching text, which is the rendering
of the final segment for a qualified-access chain and the term's full
rendering otherwise. -/
theorem filterCompletionItems_keeps_matching (target : Term) (list : List CompletionItem) :
    filterCompletionItems target list
        = list.filter (fun item => List.isPrefixOf (getTermPref target) item.label)
    ∧ (∀ ts last, target.value = Value.ref ts → termListGetLast ts = some last →
        getTermPref target = termString last)
    ∧ ((∀ ts, target.value ≠ Value.ref ts) → getTermPref target = termString target) := by
  refine ⟨keepMatching_eq_filter _ _, ?_, ?_⟩
  · intro ts last hts hlast
    simp only [getTermPref, hts, hlast]
  · intro hne
    cases target with
    | mk v l =>
      cases v with
      | ref ts => exact absurd rfl (hne ts)
      | var s => rfl
      | string s => rfl
      | number s => rfl
      | boolean b => rfl
      | array ts => rfl
      | call ts => rfl

/-- C8 witness: the matching text of the qualified chain `lib.i` is
the rendering of its final segment. -/
theorem filterCompletionItems_keeps_matching_witness :
    (refLibI.value
      = Value.ref (.cons (varT "lib" "main.rego" 100) (.cons (strT "i" "main.rego" 104) .nil)))
    ∧ (termListGetLast (.cons (varT "lib" "main.rego" 100) (.cons (strT "i" "main.rego" 104) .nil))
        = some (strT "i" "main.rego" 104))
    ∧ getTermPref refLibI = termString (strT "i" "main.rego" 104) :=
  ⟨by decide, by decide,
   (filterCompletionItems_keeps_matching refLibI []).2.1
     (.cons (varT "lib" "main.rego" 100) (.cons (strT "i" "main.rego" 104) .nil))
     (strT "i" "main.rego" 104) (by decide) (by decide)⟩

end Regols
